import Mathlib

/-!
Verification development for the r3 repository (a content-addressed store of
reproducible research jobs, implemented in Python).

The Python sources are shallowly embedded as executable Lean definitions:

* strings are Lean `String`s; Python string primitives that the code uses
  (`startswith`, slicing, `strip`, `split`, `"x".join`) are re-implemented on
  the character list `String.data` so that every definition reduces in the
  kernel;
* `pathlib` paths are modelled by `R3.Path`, the list of path components after
  the normalisation `pathlib.PurePosixPath` performs on relative paths
  (empty components and single-dot components are removed; `str` of the empty
  path renders as a single dot);
* SHA-256 itself is treated as an uninterpreted parameter `sha256 :
  String → String`; every property proved here holds for an arbitrary digest
  function, and a file is identified with the byte string `hash_file` streams
  through the digest;
* Python dictionaries are association lists with the insert-or-overwrite
  update `R3.dict_set` (Python dicts never hold a duplicate key);
* Python `sorted` is a stable sort by a key function; it is embedded as
  Mathlib's stable `List.insertionSort` over the code-point order that Python
  uses to compare strings;
* exceptions are `Except`; an exceptional return carries the message (or a
  dedicated error datatype) and leaves every modelled state unchanged, which
  matches a raised exception unwinding out of the mutating call.
-/

namespace R3

/-! ## Python string primitives -/

/-- Python `s.startswith(pre)`, on the character lists of the two strings. -/
def pyStartsWith (s pre : String) : Bool :=
  pre.data.isPrefixOf s.data

/-- Python `s[n:]` (also `str.removeprefix` by length): drop the first `n`
characters. -/
def pyDrop (s : String) (n : Nat) : String :=
  String.mk (s.data.drop n)

/-- Python `s.strip()`: remove leading and trailing whitespace. -/
def pyStrip (s : String) : String :=
  String.mk (((s.data.dropWhile Char.isWhitespace).reverse.dropWhile
    Char.isWhitespace).reverse)

/-- Split a character list at every occurrence of `sep`, keeping empty
groups, exactly like Python `s.split(sep)` for a one-character separator. -/
def splitOnChar (sep : Char) : List Char → List (List Char)
  | [] => [[]]
  | c :: cs =>
    match splitOnChar sep cs with
    | [] => [[]]
    | g :: gs => if c = sep then [] :: g :: gs else (c :: g) :: gs

/-- Python `s.split(" ")`. -/
def pySplitSpace (s : String) : List String :=
  (splitOnChar ' ' s.data).map String.mk

/-- Python `sep.join(parts)`. -/
def joinWith (sep : String) : List String → String
  | [] => ""
  | [s] => s
  | s :: rest => s ++ sep ++ joinWith sep rest

/-- Python strict string comparison: lexicographic on code points. -/
def strLtb : List Char → List Char → Bool
  | [], [] => false
  | [], _ :: _ => true
  | _ :: _, [] => false
  | a :: as, b :: bs => if a.toNat = b.toNat then strLtb as bs else decide (a.toNat < b.toNat)

/-- Python non-strict string comparison. -/
def strLeb (a b : List Char) : Bool :=
  a == b || strLtb a b

/-- The order Python uses when sorting strings, as a decidable relation. -/
def StrLe (a b : String) : Prop :=
  strLeb a.data b.data = true

instance : DecidableRel StrLe := fun a b =>
  inferInstanceAs (Decidable (strLeb a.data b.data = true))

/-! ## Paths

`R3.Path` is the component list of a relative POSIX path.  `Path.ofString`
performs the normalisation of `pathlib.PurePosixPath` on a relative path
string (splitting on slashes and dropping empty and single-dot components);
`Path.toString` is Python `str()` of such a path, which renders the empty
component list as a single dot. -/

abbrev Path := List String

/-- Python `pathlib.Path(s)` for a relative path string `s`. -/
def Path.ofString (s : String) : Path :=
  ((splitOnChar '/' s.data).map String.mk).filter (fun c => !(c == "" || c == "."))

/-- Python `str(p)` for a relative path `p`. -/
def Path.toString (p : Path) : String :=
  if p.isEmpty then "." else joinWith "/" p

/-- A well-formed path component: what `pathlib` can actually store in
`p.parts` for a relative path.  Python path components are never empty, never
a lone dot, and never contain a slash. -/
def wfComp (c : String) : Prop :=
  c ≠ "" ∧ c ≠ "." ∧ '/' ∉ c.data

instance : DecidablePred wfComp := fun c => by
  unfold wfComp; infer_instance

/-- A well-formed relative path: every component is well-formed. -/
def wfPath (p : Path) : Prop :=
  ∀ c ∈ p, wfComp c

instance : DecidablePred wfPath := fun p =>
  inferInstanceAs (Decidable (∀ c ∈ p, wfComp c))

/-! ## The dependency model (src/r3/core.py, classes Dependency, JobDependency,
GitDependency, QueryDependency, QueryAllDependency)

The four dependency kinds become one tagged sum.  Construction through the
Python `__init__` methods normalises `source` and `destination` through
`pathlib.Path`, so the Lean constructors store `Path` values.  For
`JobDependency` the `source` argument defaults to `""`, and `Path("")`
normalises to the empty component list (printed as a dot); for
`QueryAllDependency` the superclass is called with a fixed source `"."`,
which is the same empty component list. -/

inductive Dependency where
  | jobDep (job : String) (destination : Path) (source : Path)
      (query : Option String) (query_all : Option String)
  | gitDep (repository : String) (commit : String) (destination : Path) (source : Path)
  | queryDep (query : String) (destination : Path) (source : Path)
  | queryAllDep (query_all : String) (destination : Path)
deriving DecidableEq, Repr

/-- The `destination` attribute every dependency kind carries. -/
def Dependency.destination : Dependency → Path
  | .jobDep _ d _ _ _ => d
  | .gitDep _ _ d _ => d
  | .queryDep _ d _ => d
  | .queryAllDep _ d => d

/-- The `source` attribute; `QueryAllDependency.__init__` fixes it to
`Path(".")`, the empty component list. -/
def Dependency.source : Dependency → Path
  | .jobDep _ _ s _ _ => s
  | .gitDep _ _ _ s => s
  | .queryDep _ _ s => s
  | .queryAllDep _ _ => []

/-- Later-generation `Dependency.is_resolved`: only job and git dependencies
are resolved; queries are not. -/
def Dependency.is_resolved : Dependency → Bool
  | .jobDep _ _ _ _ _ => true
  | .gitDep _ _ _ _ => true
  | .queryDep _ _ _ => false
  | .queryAllDep _ _ => false

/-- The flat mapping a dependency serialises to.  A `none` field is an absent
key.  The four kinds are disambiguated by which of the keys `job`, `query`,
`query_all`, `repository` is present. -/
structure DepDict where
  job : Option String := none
  source : Option String := none
  destination : Option String := none
  query : Option String := none
  query_all : Option String := none
  repository : Option String := none
  commit : Option String := none
deriving DecidableEq, Repr

/-- `JobDependency.to_dict` / `GitDependency.to_dict` /
`QueryDependency.to_dict` / `QueryAllDependency.to_dict` from src/r3/core.py:
serialise `source` and `destination` through `str()`, keep the identifying
field, and for a job dependency record the optional `query` / `query_all`
back-pointers only when set. -/
def Dependency.to_dict : Dependency → DepDict
  | .jobDep j dest src q qa =>
    { job := some j, source := some (Path.toString src),
      destination := some (Path.toString dest), query := q, query_all := qa }
  | .gitDep r c dest src =>
    { repository := some r, commit := some c, source := some (Path.toString src),
      destination := some (Path.toString dest) }
  | .queryDep q dest src =>
    { query := some q, source := some (Path.toString src),
      destination := some (Path.toString dest) }
  | .queryAllDep qa dest =>
    { query_all := some qa, destination := some (Path.toString dest) }

/-- `Dependency.from_dict` from src/r3/core.py.  The kind is chosen by probing
the keys `job`, `query`, `query_all`, `repository` in this order; the chosen
constructor is then called with the whole dict as keyword arguments, so a key
the constructor does not accept (or a missing required key) raises a
`TypeError` — modelled as `none`.  Absent `source` takes the constructor
default (`""` for job and git dependencies, `"."` for query dependencies). -/
def Dependency.from_dict (dd : DepDict) : Option Dependency :=
  match dd.job with
  | some j =>
    match dd.destination, dd.repository, dd.commit with
    | some dest, none, none =>
      some (.jobDep j (Path.ofString dest) (Path.ofString (dd.source.getD ""))
        dd.query dd.query_all)
    | _, _, _ => none
  | none =>
  match dd.query with
  | some q =>
    match dd.destination, dd.repository, dd.commit, dd.query_all with
    | some dest, none, none, none =>
      some (.queryDep q (Path.ofString dest) (Path.ofString (dd.source.getD ".")))
    | _, _, _, _ => none
  | none =>
  match dd.query_all with
  | some qa =>
    match dd.destination, dd.repository, dd.commit, dd.source with
    | some dest, none, none, none => some (.queryAllDep qa (Path.ofString dest))
    | _, _, _, _ => none
  | none =>
  match dd.repository, dd.commit, dd.destination with
  | some r, some c, some dest =>
    some (.gitDep r c (Path.ofString dest) (Path.ofString (dd.source.getD "")))
  | _, _, _ => none

/-! ## Git repository paths (GitDependency.repository_path) -/

/-- Parse `owner/name` or `owner/name.git` where `owner` is non-empty and
`name` is non-empty and contains no dot — the tail common to the two URL
regexes of `GitDependency.repository_path`. -/
def githubOwnerName (tail : String) : Option (String × String) :=
  match (splitOnChar '/' tail.data).map String.mk with
  | [owner, rest] =>
    if owner = "" then none
    else
      let name := if ".git".data.isSuffixOf rest.data
        then String.mk (rest.data.take (rest.data.length - 4)) else rest
      if name = "" ∨ '.' ∈ name.data then none else some (owner, name)
  | _ => none

/-- `GitDependency.repository_path`: match the URL against the supported
https and ssh GitHub patterns and map it to `git/github.com/owner/name`;
an unrecognised URL raises `ValueError`, modelled as `none`. -/
def repository_path (repository : String) : Option Path :=
  if pyStartsWith repository "https://github.com/" then
    (githubOwnerName (pyDrop repository "https://github.com/".length)).map
      (fun own => ["git", "github.com", own.1, own.2])
  else if pyStartsWith repository "git@github.com:" then
    (githubOwnerName (pyDrop repository "git@github.com:".length)).map
      (fun own => ["git", "github.com", own.1, own.2])
  else none

/-! ## Hashing (src/r3/utils.py and the Dependency.hash methods)

`sha256` is the uninterpreted digest.  `hash_file` streams a file's bytes
through the digest, so a file is represented here by the string of its
content; `hash_str` hashes the string itself. -/

/-- `r3.utils.hash_str`. -/
def hash_str (sha256 : String → String) (s : String) : String :=
  sha256 s

/-- `r3.utils.hash_file`, applied to the content of the file. -/
def hash_file (sha256 : String → String) (content : String) : String :=
  sha256 content

/-- `JobDependency.hash` and `GitDependency.hash`; `QueryDependency.hash` and
`QueryAllDependency.hash` raise `ValueError` (`none`), and so does a git
dependency whose URL `repository_path` cannot parse. -/
def Dependency.hash (sha256 : String → String) : Dependency → Option String
  | .jobDep job _ src _ _ =>
    some (hash_str sha256 ("jobs/" ++ job ++ "/" ++ Path.toString src))
  | .gitDep repo commit _ src =>
    (repository_path repo).map (fun rp =>
      hash_str sha256 (Path.toString rp ++ "@" ++ commit ++ "/" ++ Path.toString src))
  | .queryDep _ _ _ => none
  | .queryAllDep _ _ => none

/-! ## Python dictionaries of strings -/

/-- Python `d[k] = v` on a dict represented as an association list without
duplicate keys: overwrite in place if the key is present, append otherwise. -/
def dict_set (d : List (String × String)) (k v : String) : List (String × String) :=
  if d.any (fun kv => kv.1 = k) then
    d.map (fun kv => if kv.1 = k then (k, v) else kv)
  else d ++ [(k, v)]

/-- Python `d[k]` / `d.get(k)` on an association list: the first binding of
`k` (the only one, for lists built with `dict_set`). -/
def aLookup (k : String) : List (String × String) → Option String
  | [] => none
  | kv :: rest => if kv.1 = k then some kv.2 else aLookup k rest

/-- Python `sorted(d)` on a dict: the keys, sorted in code-point order by a
stable sort. -/
def sortedKeys (d : List (String × String)) : List String :=
  List.insertionSort StrLe (d.map (fun kv => kv.1))

/-! ## The job model for hashing (src/r3/core.py, Job.hash)

For `Job.hash` only two pieces of a job matter: the file mapping
`destination → source` (here: destination component list → content of the
source file, since `hash_file` consumes exactly the content) and the
dependency list.  `job_id`, `committed_at` and the rest of the metadata never
enter the computation. -/

structure Job where
  files : List (Path × String)
  dependencies : List Dependency
deriving DecidableEq

/-- The destinations the hash (and the commit's copy loop) skips. -/
def isManifestPath (p : Path) : Prop :=
  p = Path.ofString "r3.yaml" ∨ p = Path.ofString "metadata.yaml"

instance : DecidablePred isManifestPath := fun p =>
  inferInstanceAs (Decidable (p = Path.ofString "r3.yaml" ∨ p = Path.ofString "metadata.yaml"))

/-- The first loop of `Job.hash`: `hashes[str(destination)] =
hash_file(source)` for every file whose destination is neither `r3.yaml` nor
`metadata.yaml`. -/
def file_hashes_fold (sha256 : String → String) :
    List (String × String) → List (Path × String) → List (String × String)
  | d, [] => d
  | d, f :: rest =>
    if isManifestPath f.1 then
      file_hashes_fold sha256 d rest
    else
      file_hashes_fold sha256 (dict_set d (Path.toString f.1) (hash_file sha256 f.2)) rest

/-- The second loop of `Job.hash`: `hashes[str(dep.destination)] =
dep.hash()`; an unhashable dependency raises, aborting the whole
computation. -/
def dep_hashes_fold (sha256 : String → String) :
    List (String × String) → List Dependency → Option (List (String × String))
  | d, [] => some d
  | d, dep :: rest =>
    match dep.hash sha256 with
    | none => none
    | some h => dep_hashes_fold sha256 (dict_set d (Path.toString dep.destination) h) rest

/-- `Job.hash(recompute=True)` with the `config["hashes"]` side effect: the
dict after both loops, the newline-joined index over the sorted keys, and the
root entry under key `"."`.  Returns the final `hashes` dict that the commit
writes into the job manifest. -/
def Job.hashes_dict (sha256 : String → String) (job : Job) :
    Option (List (String × String)) :=
  match dep_hashes_fold sha256 (file_hashes_fold sha256 [] job.files) job.dependencies with
  | none => none
  | some d =>
    let index := joinWith "\n"
      ((sortedKeys d).map (fun p => p ++ " " ++ ((aLookup p d).getD "")))
    some (dict_set d "." (hash_str sha256 index))

/-- The value `Job.hash` returns: the `"."` entry of the stored dict. -/
def Job.hash (sha256 : String → String) (job : Job) : Option String :=
  (Job.hashes_dict sha256 job).map (fun d => (aLookup "." d).getD "")

/-! ## Spec-side formulation of the job hash (claim C1)

These definitions follow the words of the specification, not the code: the
entry map is the union of the per-file digests and the per-dependency
digests, and the index is the newline join of the lines
`<path> <hash>` over the sorted keys of that union. -/

/-- The file entries of the spec's `entries` map, from a file mapping. -/
def specFileEntriesOf (sha256 : String → String) (files : List (Path × String)) :
    List (String × String) :=
  (files.filter (fun f => !decide (isManifestPath f.1))).map
    (fun f => (Path.toString f.1, hash_file sha256 f.2))

/-- The dependency entries of the spec's `entries` map, from a dependency
list. -/
def specDepEntriesOf (sha256 : String → String) (deps : List Dependency) :
    List (String × String) :=
  deps.filterMap (fun dep =>
    (dep.hash sha256).map (fun h => (Path.toString dep.destination, h)))

/-- The spec's `entries` map, as the union of the two entry families. -/
def specEntries (sha256 : String → String) (job : Job) : List (String × String) :=
  specFileEntriesOf sha256 job.files ++ specDepEntriesOf sha256 job.dependencies

/-- The keys the file entries contribute (independent of the digest). -/
def file_keys (files : List (Path × String)) : List String :=
  (files.filter (fun f => !decide (isManifestPath f.1))).map
    (fun f => Path.toString f.1)

/-- The keys the dependency entries contribute. -/
def dep_keys (deps : List Dependency) : List String :=
  deps.map (fun dep => Path.toString dep.destination)

/-- The keys of the spec's `entries` map. -/
def job_keys (job : Job) : List String :=
  file_keys job.files ++ dep_keys job.dependencies

/-- The spec's index string: the lines `<path> <entries[path]>` for the sorted
keys, joined by newlines. -/
def specIndexString (sha256 : String → String) (job : Job) : String :=
  joinWith "\n" ((List.insertionSort StrLe (job_keys job)).map
    (fun p => p ++ " " ++ ((aLookup p (specEntries sha256 job)).getD "")))

/-- Lexicographic order on string pairs, used only to canonicalise dicts. -/
def PairLe (a b : String × String) : Prop :=
  strLtb a.1.data b.1.data = true ∨ (a.1 = b.1 ∧ StrLe a.2 b.2)

instance : DecidableRel PairLe := fun a b =>
  inferInstanceAs (Decidable (strLtb a.1.data b.1.data = true ∨
    (a.1 = b.1 ∧ StrLe a.2 b.2)))

/-- Canonical view of a string dict: its bindings sorted by key and value.
Two dicts with the same canonical view serialise to byte-identical YAML
(`yaml.dump` sorts keys). -/
def canonicalDict (d : List (String × String)) : List (String × String) :=
  List.insertionSort PairLe d

/-! ## The index

`index.yaml` maps each committed job id to its tag list, its `committed_at`
timestamp (a `YYYY-MM-DD HH:MM:SS` string, whose code-point order is its
chronological order, one-second resolution) and its serialised dependency
dicts.  The index is an insertion-ordered mapping with unique keys, modelled
as an association list. -/

structure IndexEntry where
  tags : List String
  datetime : String
  dependencies : List DepDict
deriving DecidableEq, Repr

abbrev Index := List (String × IndexEntry)

/-- The tag filter both generations of `find` share: an entry matches when
the given tags are a subset of the entry's tags. -/
def matchesTags (tags : List String) (e : String × IndexEntry) : Bool :=
  tags.all (fun t => e.2.tags.contains t)

/-- The sort order of the later-generation `Index.find`: ascending by
`datetime`, ties broken by job id, both in code-point order. -/
def EntryLe (a b : String × IndexEntry) : Prop :=
  strLtb a.2.datetime.data b.2.datetime.data = true ∨
    (a.2.datetime = b.2.datetime ∧ StrLe a.1 b.1)

instance : DecidableRel EntryLe := fun a b =>
  inferInstanceAs (Decidable (strLtb a.2.datetime.data b.2.datetime.data = true ∨
    (a.2.datetime = b.2.datetime ∧ StrLe a.1 b.1)))

/-- Modelled from the spec: `r3/index.py` is not among the sources, only its
caller `src/r3/repository.py` is.  Spec section 4.6: "`find(tags, latest) →
[Job]`: select every entry whose `tags ⊇ given_tag_set`; construct Job values
for each; sort ascending by `datetime`.  If `latest`, return `[argmax by
datetime]` or `[]` when empty", with the tie-break "by the lexicographic
order of `datetime` (one-second resolution); ties broken by `job_id`
ascending (stable, deterministic)".  A result is the `(job_id, entry)` pair
the constructed Job originates from. -/
def Index.find (index : Index) (tags : List String) (latest : Bool) :
    List (String × IndexEntry) :=
  let results := index.filter (matchesTags tags)
  let sorted := List.insertionSort EntryLe results
  if latest then sorted.getLast?.toList else sorted

/-- An index entry records a dependency on the given job: some serialised
dependency dict has `job == jobId`. -/
def depends_on (e : String × IndexEntry) (jobId : String) : Bool :=
  e.2.dependencies.any (fun d => d.job == some jobId)

/-- Modelled from the spec: `r3/index.py` is not among the sources.  Spec
section 4.6: "`find_dependents(job) → [Job]`: every index entry that has a
dependency dict containing `job == job.id`". -/
def Index.find_dependents (index : Index) (jobId : String) : List (String × IndexEntry) :=
  index.filter (fun e => depends_on e jobId)

/-- Python `max(results, key=...)` keyed by the entry datetime: the first
element whose key is maximal (later elements replace the current maximum only
when strictly greater).  `max` of an empty sequence raises `ValueError`. -/
def pymax_by_datetime (results : List (String × IndexEntry)) :
    Option (String × IndexEntry) :=
  match results with
  | [] => none
  | x :: xs =>
    some (xs.foldl (fun m y =>
      if strLtb m.2.datetime.data y.2.datetime.data then y else m) x)

/-- `Repository.find` of the earlier generation (src/r3/core.py, lines
247-268): filter the index by tags, then either `[max(results, key=datetime)]`
— which raises `ValueError` when nothing matched — or the results sorted
ascending by datetime alone (Python `sorted`, a stable sort, so ties keep
index insertion order). -/
def Repository.find (index : Index) (tags : List String) (latest : Bool) :
    Except String (List (String × IndexEntry)) :=
  let results := index.filter (matchesTags tags)
  if latest then
    match pymax_by_datetime results with
    | none => Except.error "max() arg is an empty sequence"
    | some j => Except.ok [j]
  else
    Except.ok (List.insertionSort
      (fun a b => strLeb a.2.datetime.data b.2.datetime.data = true) results)

/-! ## Query resolution (src/r3/repository.py, lines 280-302) -/

/-- The query parsing both resolvers share: strip the query, split on single
spaces, require every token to start with `#`, and drop the leading `#` of
each token. -/
def parseQueryTags (query : String) : Option (List String) :=
  let tags := pySplitSpace (pyStrip query)
  if tags.all (fun t => pyStartsWith t "#") then
    some (tags.map (fun t => pyDrop t 1))
  else none

/-- `Repository._resolve_query_all_dependency` from src/r3/repository.py
(the later generation, which `spec.md` follows): resolve the tag query with
`find(tags, latest=False)`; an invalid token or an empty result raises
`ValueError`; otherwise build one `JobDependency(job, destination / job.id,
query_all=query_all)` per matched job — `source` keeps the constructor
default `""`, which `pathlib` normalises to the empty path, printed `"."`. -/
def Repository.resolve_query_all_dependency (index : Index) (query_all : String)
    (destination : Path) : Except String (List Dependency) :=
  match parseQueryTags query_all with
  | none => Except.error ("Invalid query: " ++ query_all)
  | some tags =>
    let result := Index.find index tags false
    if result.isEmpty then Except.error ("Cannot resolve dependency: " ++ query_all)
    else Except.ok (result.map (fun j =>
      Dependency.jobDep j.1 (destination ++ Path.ofString j.1) (Path.ofString "")
        none (some query_all)))

/-! ## Removing a job (src/r3/repository.py, lines 166-189) -/

/-- The repository state `remove` touches: the set of job directories under
`jobs/` (by id) and the index mapping. -/
structure RepoState where
  storage : List String
  index : Index
deriving DecidableEq

inductive RemoveError where
  | not_contained
  | has_dependents (ids : List String)
deriving DecidableEq, Repr

/-- `Repository.remove`: require the job to be contained (its directory
exists under `jobs/`), fail listing every dependent when
`index.find_dependents` is non-empty, otherwise delete the job directory
(`storage.remove`) and then its index entry (`index.remove`).  An error
leaves the state unchanged: the exception propagates before either mutation
runs. -/
def Repository.remove (s : RepoState) (jobId : String) : Except RemoveError RepoState :=
  if !(s.storage.contains jobId) then Except.error RemoveError.not_contained
  else if !(Index.find_dependents s.index jobId).isEmpty then
    Except.error (RemoveError.has_dependents
      ((Index.find_dependents s.index jobId).map (fun e => e.1)))
  else
    Except.ok
      { storage := s.storage.filter (fun i => i != jobId),
        index := s.index.filter (fun e => e.1 != jobId) }

/-- Concrete index-entry and repository fixtures for evaluating the embedded
operations on closed inputs. -/
def entry_a : IndexEntry :=
  { tags := [], datetime := "2024-01-01 00:00:00", dependencies := [] }

def entry_b : IndexEntry :=
  { tags := [], datetime := "2024-01-02 00:00:00",
    dependencies := [{ job := some "a", source := some ".", destination := some "x" }] }

def state_ab : RepoState :=
  { storage := ["a", "b"], index := [("a", entry_a), ("b", entry_b)] }

def entry_x1 : IndexEntry :=
  { tags := ["x"], datetime := "2024-01-02 00:00:00", dependencies := [] }

def entry_x2 : IndexEntry :=
  { tags := ["x", "y"], datetime := "2024-01-01 00:00:00", dependencies := [] }

/-- A three-entry index with a datetime tie between ids `b` and `a`. -/
def index_x : Index := [("b", entry_x1), ("a", entry_x1), ("c", entry_x2)]

/-- A single-entry index. -/
def index_single : Index := [("idA", entry_x1)]

/-- The identity digest, used to evaluate the hash pipeline on closed
inputs (every property here holds for an arbitrary digest function). -/
def idDigest : String → String := fun s => s

/-- A one-file, one-dependency job. -/
def job_hash_w : Job :=
  { files := [(["f1"], "c1")],
    dependencies := [Dependency.jobDep "j1" ["d1"] [] none none] }

/-- Two jobs with the same destination-to-content file mapping, enumerated in
different orders. -/
def job_perm_w1 : Job :=
  { files := [(["a"], "x"), (["b"], "y")], dependencies := [] }

def job_perm_w2 : Job :=
  { files := [(["b"], "y"), (["a"], "x")], dependencies := [] }

/-! ## Commit-time permission handling (src/r3/core.py, lines 86-115 and
687-690)

`Repository.commit` creates the job directory and `output/` with the
process's directory-creation mode, writes `r3.yaml` and `metadata.yaml` with
the file-creation mode, copies every job file (`shutil.copy` also copies the
source's permission bits), and calls `_remove_write_permissions` on
`r3.yaml`, on every copied file, and finally on the job directory itself.
`commit_modes` records the resulting permission bits of every path the
commit creates under the job directory. -/

/-- `stat.S_IMODE`: the permission bits of a raw mode. -/
def S_IMODE (m : Nat) : Nat := m &&& 0o7777

/-- `_remove_write_permissions`: clear `S_IWUSR`, `S_IWGRP` and `S_IWOTH`. -/
def _remove_write_permissions (m : Nat) : Nat :=
  S_IMODE m &&& 0o7555

/-- The permission bits `commit` leaves behind, one entry per created path
(`[]` is the job directory itself), given the file mapping with each source
file's mode, the mode newly created files get, and the mode newly created
directories get. -/
def commit_modes (files : List (Path × Nat)) (newFileMode newDirMode : Nat) :
    List (Path × Nat) :=
  ([], _remove_write_permissions (S_IMODE newDirMode)) ::
  (["output"], S_IMODE newDirMode) ::
  (["r3.yaml"], _remove_write_permissions (S_IMODE newFileMode)) ::
  (["metadata.yaml"], S_IMODE newFileMode) ::
  files.filterMap (fun f =>
    if isManifestPath f.1 then none
    else some (f.1, _remove_write_permissions (S_IMODE f.2)))

/-! ## File enumeration (src/r3/utils.py, lines 7-35)

A directory tree is a list of named entries in the order `iterdir` yields
them.  `find_files` returns the relative paths of the files the walk keeps,
or the `NotImplementedError` message when a pattern without a leading slash
is encountered (checked at entry of every `_find_files` call, including the
recursive ones). -/

inductive FsEntry where
  | file (name : String)
  | dir (name : String) (children : List FsEntry)

/-- `_is_ignored`: some pattern equals `"/" + name`. -/
def _is_ignored (name : String) (patterns : List String) : Bool :=
  patterns.any (fun p => p = "/" ++ name)

/-- The error message of the `NotImplementedError` `_find_files` raises. -/
def unsupportedPatternMsg : String :=
  "Only absolute ignore patterns (starting with /) are supported for now."

/-- The `for child in path.iterdir()` loop of `_find_files`.  The Python loop
rebinds its `ignore_patterns` variable when it descends into a directory, so
the entries after that directory are filtered against the rewritten pattern
list; this is modelled by passing the rewritten list to the recursive call on
the remaining siblings.  Before descending, the rewritten list is checked for
a leading slash on every pattern — the entry check of the nested
`_find_files` call. -/
def find_files_loop : List FsEntry → List String → Except String (List Path)
  | [], _ => Except.ok []
  | .file n :: rest, pats =>
    if _is_ignored n pats then find_files_loop rest pats
    else (find_files_loop rest pats).map (fun r => [n] :: r)
  | .dir n cs :: rest, pats =>
    if _is_ignored n pats then find_files_loop rest pats
    else
      let pats2 := (pats.filter (fun p => pyStartsWith p ("/" ++ n))).map
        (fun p => pyDrop p ("/" ++ n).length)
      if !(pats2.all (fun p => pyStartsWith p "/")) then
        Except.error unsupportedPatternMsg
      else do
        let sub ← find_files_loop cs pats2
        let r ← find_files_loop rest pats2
        pure (sub.map (fun q => n :: q) ++ r)
termination_by l _ => sizeOf l
decreasing_by all_goals simp_wf <;> omega

/-- `find_files(path, ignore_patterns)`: check every pattern starts with a
slash, then walk the tree. -/
def find_files (root : List FsEntry) (pats : List String) : Except String (List Path) :=
  if !(pats.all (fun p => pyStartsWith p "/")) then Except.error unsupportedPatternMsg
  else find_files_loop root pats

/-! ## The ignore-list side effect of Job._load_files (src/r3/core.py, lines
441-450)

`_load_files` runs `ignore = self._config.get("ignore", [])` and then appends
`"/" + str(dep.destination)` for every dependency.  When the manifest has an
`ignore` key, `ignore` aliases the config's own list and the appends mutate
the config in place (and hence the `r3.yaml` the commit later writes); when
the key is absent, `get` returns a fresh list and the config is untouched. -/

/-- The slice of the job manifest `_load_files` can mutate: `none` models a
manifest without an `ignore` key. -/
structure JobConfig where
  ignore : Option (List String)
deriving DecidableEq, Repr

/-- The ignore list `_load_files` passes to `find_files`: the manifest's list
(or a fresh empty one) followed by one entry per dependency destination. -/
def _load_files_ignore (config : JobConfig) (deps : List Dependency) : List String :=
  config.ignore.getD [] ++ deps.map (fun d => "/" ++ Path.toString d.destination)

/-- The manifest after `_load_files` ran: mutated in place through the alias
when the `ignore` key exists, untouched otherwise. -/
def _load_files_config (config : JobConfig) (deps : List Dependency) : JobConfig :=
  match config.ignore with
  | some l =>
    { ignore := some (l ++ deps.map (fun d => "/" ++ Path.toString d.destination)) }
  | none => config

/-- Decidable equality for `Except` values, used to evaluate the embedded
functions on concrete inputs. -/
instance {ε α : Type} [DecidableEq ε] [DecidableEq α] : DecidableEq (Except ε α) :=
  fun a b =>
    match a, b with
    | .ok x, .ok y =>
      if h : x = y then Decidable.isTrue (by rw [h])
      else Decidable.isFalse (by simp [h])
    | .error x, .error y =>
      if h : x = y then Decidable.isTrue (by rw [h])
      else Decidable.isFalse (by simp [h])
    | .ok _, .error _ => Decidable.isFalse (by simp)
    | .error _, .ok _ => Decidable.isFalse (by simp)

/-! ## Properties of the embedded string order -/

theorem char_toNat_inj {a b : Char} (h : a.toNat = b.toNat) : a = b :=
  Char.ext (UInt32.ext h)

theorem strLtb_irrefl : ∀ a, strLtb a a = false
  | [] => rfl
  | a :: as => by
    simp only [strLtb, if_pos rfl]
    exact strLtb_irrefl as

theorem strLtb_trans : ∀ a b c, strLtb a b = true → strLtb b c = true →
    strLtb a c = true
  | [], [], _, h, _ => by simp [strLtb] at h
  | [], _ :: _, [], _, h => by simp [strLtb] at h
  | [], _ :: _, _ :: _, _, _ => by simp [strLtb]
  | _ :: _, [], _, h, _ => by simp [strLtb] at h
  | _ :: _, _ :: _, [], _, h => by simp [strLtb] at h
  | a :: as, b :: bs, c :: cs, h1, h2 => by
    simp only [strLtb] at h1 h2 ⊢
    by_cases hab : a.toNat = b.toNat
    · rw [if_pos hab] at h1
      by_cases hbc : b.toNat = c.toNat
      · rw [if_pos hbc] at h2
        rw [if_pos (hab.trans hbc)]
        exact strLtb_trans as bs cs h1 h2
      · rw [if_neg hbc] at h2
        rw [if_neg (fun h => hbc (hab.symm.trans h)), hab]
        exact h2
    · rw [if_neg hab] at h1
      by_cases hbc : b.toNat = c.toNat
      · rw [if_neg (fun h => hab (h.trans hbc.symm)), ← hbc]
        exact h1
      · rw [if_neg hbc] at h2
        have h1' := of_decide_eq_true h1
        have h2' := of_decide_eq_true h2
        have hac : a.toNat ≠ c.toNat := by omega
        rw [if_neg hac]
        exact decide_eq_true (Nat.lt_trans h1' h2')

theorem strLtb_asymm : ∀ a b, strLtb a b = true → strLtb b a = true → False
  | [], _, h1, h2 => by
    cases ‹List Char› <;> simp [strLtb] at h1 h2
  | _ :: _, [], h1, _ => by simp [strLtb] at h1
  | a :: as, b :: bs, h1, h2 => by
    simp only [strLtb] at h1 h2
    by_cases hab : a.toNat = b.toNat
    · rw [if_pos hab] at h1
      rw [if_pos hab.symm] at h2
      exact strLtb_asymm as bs h1 h2
    · rw [if_neg hab] at h1
      rw [if_neg (fun h => hab h.symm)] at h2
      have := of_decide_eq_true h1
      have := of_decide_eq_true h2
      omega

theorem strLtb_connex : ∀ a b, a ≠ b → strLtb a b = true ∨ strLtb b a = true
  | [], [], h => absurd rfl h
  | [], _ :: _, _ => by simp [strLtb]
  | _ :: _, [], _ => by simp [strLtb]
  | a :: as, b :: bs, h => by
    simp only [strLtb]
    by_cases hab : a.toNat = b.toNat
    · have hab' : a = b := char_toNat_inj hab
      rw [if_pos hab, if_pos hab.symm]
      refine strLtb_connex as bs (fun he => h ?_)
      rw [hab', he]
    · rw [if_neg hab, if_neg (fun he => hab he.symm)]
      rcases Nat.lt_or_ge a.toNat b.toNat with hl | hg
      · exact Or.inl (decide_eq_true hl)
      · exact Or.inr (decide_eq_true (by omega))

theorem strLeb_refl (a : List Char) : strLeb a a = true := by
  simp [strLeb]

theorem strLeb_iff {a b : List Char} :
    strLeb a b = true ↔ a = b ∨ strLtb a b = true := by
  simp [strLeb, Bool.or_eq_true, beq_iff_eq]

theorem strLeb_trans {a b c : List Char} (h1 : strLeb a b = true)
    (h2 : strLeb b c = true) : strLeb a c = true := by
  rcases strLeb_iff.mp h1 with rfl | hab
  · exact h2
  rcases strLeb_iff.mp h2 with rfl | hbc
  · exact strLeb_iff.mpr (Or.inr hab)
  · exact strLeb_iff.mpr (Or.inr (strLtb_trans _ _ _ hab hbc))

theorem strLeb_antisymm {a b : List Char} (h1 : strLeb a b = true)
    (h2 : strLeb b a = true) : a = b := by
  rcases strLeb_iff.mp h1 with rfl | hab
  · rfl
  rcases strLeb_iff.mp h2 with rfl | hba
  · rfl
  · exact absurd hba (fun hc => strLtb_asymm _ _ hab hc)

theorem strLeb_total (a b : List Char) : strLeb a b = true ∨ strLeb b a = true := by
  by_cases h : a = b
  · exact Or.inl (strLeb_iff.mpr (Or.inl h))
  · rcases strLtb_connex a b h with hl | hr
    · exact Or.inl (strLeb_iff.mpr (Or.inr hl))
    · exact Or.inr (strLeb_iff.mpr (Or.inr hr))

theorem StrLe_refl (a : String) : StrLe a a :=
  strLeb_refl a.data

theorem StrLe_trans : ∀ a b c : String, StrLe a b → StrLe b c → StrLe a c :=
  fun _ _ _ h1 h2 => strLeb_trans h1 h2

theorem StrLe_antisymm : ∀ a b : String, StrLe a b → StrLe b a → a = b :=
  fun _ _ h1 h2 => String.ext (strLeb_antisymm h1 h2)

theorem StrLe_total : ∀ a b : String, StrLe a b ∨ StrLe b a :=
  fun a b => strLeb_total a.data b.data

theorem PairLe_trans : ∀ a b c : String × String, PairLe a b → PairLe b c → PairLe a c := by
  rintro a b c (h1 | ⟨h1e, h1v⟩) (h2 | ⟨h2e, h2v⟩)
  · exact Or.inl (strLtb_trans _ _ _ h1 h2)
  · exact Or.inl (h2e ▸ h1)
  · exact Or.inl (h1e ▸ h2)
  · exact Or.inr ⟨h1e.trans h2e, StrLe_trans _ _ _ h1v h2v⟩

theorem PairLe_antisymm : ∀ a b : String × String, PairLe a b → PairLe b a → a = b := by
  rintro ⟨a1, a2⟩ ⟨b1, b2⟩ (h1 | ⟨h1e, h1v⟩) (h2 | ⟨h2e, h2v⟩)
  · exact absurd h2 (fun hc => strLtb_asymm _ _ h1 hc)
  · exfalso
    have h2e' : b1 = a1 := h2e
    subst h2e'
    rw [strLtb_irrefl] at h1
    exact Bool.false_ne_true h1
  · exfalso
    have h1e' : a1 = b1 := h1e
    subst h1e'
    rw [strLtb_irrefl] at h2
    exact Bool.false_ne_true h2
  · simp only [Prod.mk.injEq]
    exact ⟨h1e, StrLe_antisymm _ _ h1v h2v⟩

theorem PairLe_total : ∀ a b : String × String, PairLe a b ∨ PairLe b a := by
  intro a b
  by_cases he : a.1 = b.1
  · rcases StrLe_total a.2 b.2 with h | h
    · exact Or.inl (Or.inr ⟨he, h⟩)
    · exact Or.inr (Or.inr ⟨he.symm, h⟩)
  · rcases strLtb_connex a.1.data b.1.data
        (fun hc => he (String.ext hc)) with h | h
    · exact Or.inl (Or.inl h)
    · exact Or.inr (Or.inl h)

theorem EntryLe_trans : ∀ a b c : String × IndexEntry, EntryLe a b → EntryLe b c →
    EntryLe a c := by
  rintro a b c (h1 | ⟨h1e, h1v⟩) (h2 | ⟨h2e, h2v⟩)
  · exact Or.inl (strLtb_trans _ _ _ h1 h2)
  · exact Or.inl (h2e ▸ h1)
  · exact Or.inl (h1e ▸ h2)
  · exact Or.inr ⟨h1e.trans h2e, StrLe_trans _ _ _ h1v h2v⟩

theorem EntryLe_total : ∀ a b : String × IndexEntry, EntryLe a b ∨ EntryLe b a := by
  intro a b
  by_cases he : a.2.datetime = b.2.datetime
  · rcases StrLe_total a.1 b.1 with h | h
    · exact Or.inl (Or.inr ⟨he, h⟩)
    · exact Or.inr (Or.inr ⟨he.symm, h⟩)
  · rcases strLtb_connex a.2.datetime.data b.2.datetime.data
        (fun hc => he (String.ext hc)) with h | h
    · exact Or.inl (Or.inl h)
    · exact Or.inr (Or.inl h)

theorem EntryLe_refl (a : String × IndexEntry) : EntryLe a a :=
  Or.inr ⟨rfl, StrLe_refl a.1⟩

/-! ## Sorting helper lemmas -/

theorem insertionSort_sorted {α : Type} (r : α → α → Prop) [DecidableRel r]
    (htotal : ∀ a b, r a b ∨ r b a) (htrans : ∀ a b c, r a b → r b c → r a c)
    (l : List α) : List.Sorted r (List.insertionSort r l) :=
  @List.sorted_insertionSort α r _ ⟨htotal⟩ ⟨htrans⟩ l

theorem insertionSort_eq_of_perm {α : Type} (r : α → α → Prop) [DecidableRel r]
    (htotal : ∀ a b, r a b ∨ r b a) (htrans : ∀ a b c, r a b → r b c → r a c)
    (hanti : ∀ a b, r a b → r b a → a = b) {l1 l2 : List α} (h : l1.Perm l2) :
    List.insertionSort r l1 = List.insertionSort r l2 :=
  @List.eq_of_perm_of_sorted α r ⟨hanti⟩ _ _
    (((List.perm_insertionSort r l1).trans h).trans (List.perm_insertionSort r l2).symm)
    (insertionSort_sorted r htotal htrans l1)
    (insertionSort_sorted r htotal htrans l2)

/-! ## Dictionary lemmas -/

theorem dict_set_fresh (d : List (String × String)) (k v : String)
    (h : ∀ kv ∈ d, kv.1 ≠ k) : dict_set d k v = d ++ [(k, v)] := by
  unfold dict_set
  rw [if_neg]
  simp only [List.any_eq_true, decide_eq_true_eq, not_exists, not_and]
  exact fun kv hm => h kv hm

theorem aLookup_append_of_not_mem (k : String) (d1 d2 : List (String × String))
    (h : ∀ kv ∈ d1, kv.1 ≠ k) : aLookup k (d1 ++ d2) = aLookup k d2 := by
  induction d1 with
  | nil => rfl
  | cons kv rest ih =>
    simp only [List.cons_append, aLookup]
    rw [if_neg (h kv (by simp))]
    exact ih (fun x hm => h x (by simp [hm]))

theorem aLookup_perm {l1 l2 : List (String × String)} (h : l1.Perm l2)
    (nd : (l1.map Prod.fst).Nodup) (k : String) : aLookup k l1 = aLookup k l2 := by
  induction h with
  | nil => rfl
  | cons x h ih =>
    simp only [List.map_cons, List.nodup_cons] at nd
    simp only [aLookup]
    by_cases hx : x.1 = k
    · rw [if_pos hx, if_pos hx]
    · rw [if_neg hx, if_neg hx]
      exact ih nd.2
  | swap x y l =>
    simp only [List.map_cons, List.nodup_cons, List.mem_cons, List.mem_map] at nd
    have hxy : y.1 ≠ x.1 := fun he => nd.1 (Or.inl he)
    simp only [aLookup]
    by_cases hy : y.1 = k
    · rw [if_pos hy, if_neg (fun hx => hxy (hy.trans hx.symm)), if_pos hy]
    · by_cases hx : x.1 = k
      · rw [if_neg hy, if_pos hx, if_pos hx]
      · rw [if_neg hy, if_neg hx, if_neg hx, if_neg hy]
  | trans h1 h2 ih1 ih2 =>
    have nd2 := ((h1.map Prod.fst).nodup_iff).mp nd
    exact (ih1 nd).trans (ih2 nd2)

/-! ## Path parsing and printing lemmas -/

theorem splitOnChar_ne_nil (sep : Char) : ∀ l, splitOnChar sep l ≠ []
  | [] => by simp [splitOnChar]
  | c :: cs => by
    simp only [splitOnChar]
    rcases hs : splitOnChar sep cs with _ | ⟨g, gs⟩
    · simp
    · by_cases hc : c = sep <;> simp [hc]

theorem splitOnChar_of_not_mem (sep : Char) :
    ∀ l, sep ∉ l → splitOnChar sep l = [l]
  | [], _ => rfl
  | c :: cs, h => by
    have hrec := splitOnChar_of_not_mem sep cs (fun hm => h (List.mem_cons_of_mem c hm))
    have hne : c ≠ sep := fun he => h (he ▸ List.mem_cons_self c cs)
    simp only [splitOnChar, hrec]
    rw [if_neg hne]

theorem splitOnChar_append (sep : Char) :
    ∀ l1 l2, sep ∉ l1 →
      splitOnChar sep (l1 ++ sep :: l2) = l1 :: splitOnChar sep l2
  | [], l2, _ => by
    rcases hs : splitOnChar sep l2 with _ | ⟨g, gs⟩
    · exact absurd hs (splitOnChar_ne_nil sep l2)
    · simp [splitOnChar, hs]
  | c :: cs, l2, h => by
    have hrec := splitOnChar_append sep cs l2 (fun hm => h (List.mem_cons_of_mem c hm))
    have hne : c ≠ sep := fun he => h (he ▸ List.mem_cons_self c cs)
    simp only [List.cons_append, splitOnChar, List.append_eq, hrec]
    rw [if_neg hne]

theorem string_mk_data (s : String) : String.mk s.data = s := rfl

theorem ofString_single (c : String) (h : wfComp c) : Path.ofString c = [c] := by
  obtain ⟨h1, h2, h3⟩ := h
  unfold Path.ofString
  rw [splitOnChar_of_not_mem '/' c.data h3]
  simp only [List.map_cons, List.map_nil, string_mk_data, List.filter_cons]
  rw [show (!(c == "" || c == ".")) = true by simp [h1, h2]]
  rfl

theorem joinWith_slash_data (s : String) (rest : List String) (h : rest ≠ []) :
    (joinWith "/" (s :: rest)).data = s.data ++ '/' :: (joinWith "/" rest).data := by
  rcases rest with _ | ⟨r, rs⟩
  · exact absurd rfl h
  · show (s ++ "/" ++ joinWith "/" (r :: rs)).data = _
    rw [String.data_append, String.data_append]
    simp [show ("/" : String).data = ['/'] from rfl]

theorem ofString_joinWith : ∀ p : Path, p ≠ [] → wfPath p →
    Path.ofString (joinWith "/" p) = p
  | [], h, _ => absurd rfl h
  | [c], _, h => ofString_single c (h c (by simp))
  | c :: c2 :: rest, _, h => by
    have hc := h c (by simp)
    have ih := ofString_joinWith (c2 :: rest) (by simp)
      (fun x hx => h x (List.mem_cons_of_mem c hx))
    unfold Path.ofString at ih ⊢
    rw [joinWith_slash_data c (c2 :: rest) (by simp)]
    rw [splitOnChar_append '/' c.data _ hc.2.2]
    simp only [List.map_cons, string_mk_data, List.filter_cons]
    rw [show (!(c == "" || c == ".")) = true by simp [hc.1, hc.2.1]]
    simp only [if_pos]
    rw [ih]

theorem Path_ofString_toString (p : Path) (h : wfPath p) :
    Path.ofString (Path.toString p) = p := by
  rcases p with _ | ⟨c, rest⟩
  · rfl
  · unfold Path.toString
    rw [if_neg (by simp)]
    exact ofString_joinWith (c :: rest) (by simp) h

/-! ## Claim C7: serialisation round-trip for resolved dependencies -/

/-- C7: for every resolved dependency — a job dependency, including any
`query` or `query_all` back-pointer, or a git dependency — deserialising its
serialised form reproduces it with all fields equal:
`from_dict (to_dict d) = d`.  The hypotheses require the stored paths to be
well-formed relative paths, which is every path `pathlib` can produce for a
dependency's `source` and `destination`. -/
theorem C7_dependency_round_trip (d : Dependency) (hres : d.is_resolved = true)
    (hdest : wfPath d.destination) (hsrc : wfPath d.source) :
    Dependency.from_dict (Dependency.to_dict d) = some d := by
  cases d with
  | jobDep j dest src q qa =>
    simp only [Dependency.destination] at hdest
    simp only [Dependency.source] at hsrc
    simp only [Dependency.to_dict, Dependency.from_dict, Option.getD]
    rw [Path_ofString_toString dest hdest, Path_ofString_toString src hsrc]
  | gitDep r c dest src =>
    simp only [Dependency.destination] at hdest
    simp only [Dependency.source] at hsrc
    simp only [Dependency.to_dict, Dependency.from_dict, Option.getD]
    rw [Path_ofString_toString dest hdest, Path_ofString_toString src hsrc]
  | queryDep q dest src => simp [Dependency.is_resolved] at hres
  | queryAllDep qa dest => simp [Dependency.is_resolved] at hres

/-- Witness for C7: the round-trip evaluated on a concrete job dependency
that records a query back-pointer, and on a concrete git dependency. -/
theorem C7_dependency_round_trip_witness :
    Dependency.from_dict (Dependency.to_dict
      (Dependency.jobDep "4ffb231" ["outputs", "model"] ["output"] (some "#a #b") none)) =
      some (Dependency.jobDep "4ffb231" ["outputs", "model"] ["output"] (some "#a #b") none) ∧
    Dependency.from_dict (Dependency.to_dict
      (Dependency.gitDep "https://github.com/owner/name" "0a1b2c" ["lib"] ["src"])) =
      some (Dependency.gitDep "https://github.com/owner/name" "0a1b2c" ["lib"] ["src"]) :=
  ⟨C7_dependency_round_trip _ (by decide) (by decide) (by decide),
   C7_dependency_round_trip _ (by decide) (by decide) (by decide)⟩

/-! ## Claim C10: the ignore-list side effect of Job._load_files -/

/-- C10 counterexample: a job with one dependency whose manifest has no
`ignore` key.  Computing the job's files leaves the manifest without any
ignore entry — the appends go to the fresh list `config.get("ignore", [])`
returned for the missing key — so the committed `r3.yaml` does not contain
the per-dependency entries the claim promises for every job with a non-empty
dependency list. -/
theorem C10_counterexample :
    _load_files_config { ignore := none }
        [Dependency.jobDep "a1" ["data"] [] none none] = { ignore := none } ∧
    _load_files_ignore { ignore := none }
        [Dependency.jobDep "a1" ["data"] [] none none] = ["/data"] ∧
    ([Dependency.jobDep "a1" ["data"] [] none none] : List Dependency) ≠ [] := by
  refine ⟨rfl, by decide, by decide⟩

/-- C10 amended: when the manifest declares an `ignore` list, computing the
job's files appends `"/" + str(dep.destination)` for each dependency — one
entry per dependency, in order, after the user-specified patterns — to that
list in place, and the mutated list is what the commit writes back; when the
manifest has no `ignore` key the manifest is left unchanged and the appended
entries live only in the list passed to `find_files`. -/
theorem C10_ignore_append (l : List String) (deps : List Dependency)
    (hne : deps ≠ []) :
    (_load_files_config { ignore := some l } deps).ignore =
      some (l ++ deps.map (fun d => "/" ++ Path.toString d.destination)) ∧
    (deps.map (fun d => "/" ++ Path.toString d.destination)).length = deps.length ∧
    _load_files_config { ignore := none } deps = { ignore := none } ∧
    _load_files_ignore { ignore := some l } deps =
      l ++ deps.map (fun d => "/" ++ Path.toString d.destination) := by
  refine ⟨rfl, List.length_map deps _, rfl, rfl⟩

/-- Witness for C10 amended: a concrete manifest with one user pattern and a
job with two dependencies. -/
theorem C10_ignore_append_witness :
    (_load_files_config { ignore := some ["/logs"] }
        [Dependency.jobDep "a1" ["data"] [] none none,
         Dependency.jobDep "b2" ["model", "ckpt"] [] none none]).ignore =
      some ["/logs", "/data", "/model/ckpt"] := by
  have h := C10_ignore_append ["/logs"]
    [Dependency.jobDep "a1" ["data"] [] none none,
     Dependency.jobDep "b2" ["model", "ckpt"] [] none none] (by decide)
  rw [h.1]
  decide

/-! ## Claim C5: write permissions after commit -/

/-- C5 (code bug): the claim — every file under the committed job directory,
including `r3.yaml` and `metadata.yaml`, and the directory itself, has all
write bits cleared — matches the spec's sealed-job invariant, but
`Repository.commit` never calls `_remove_write_permissions` on
`metadata.yaml` (nor on the `output` directory): with the usual creation
modes `0o644` / `0o755`, `metadata.yaml` keeps mode `0o644`, whose owner
write bit is set. -/
theorem C5_metadata_keeps_write_bits :
    commit_modes [] 0o644 0o755 =
      [([], 0o555), (["output"], 0o755), (["r3.yaml"], 0o444),
       (["metadata.yaml"], 0o644)] ∧
    (commit_modes [] 0o644 0o755).any
      (fun e => e.1 == ["metadata.yaml"] && e.2 &&& 0o200 != 0) = true := by
  constructor
  · decide
  · decide

/-! ## Claim C3: find with latest=True on an empty result -/

/-- C3 (code bug): `Repository.find` from src/r3/core.py applies Python `max`
to the filtered results when `latest` is set, so a tag set matching no job
raises `ValueError` instead of returning the empty list the spec (and the
function's own callers, which test `len(result) < 1`) expect; with at least
one match it returns the single latest job as claimed. -/
theorem C3_find_latest_empty_raises :
    Repository.find [] ["some-tag"] true =
      Except.error "max() arg is an empty sequence" ∧
    Repository.find
        [("id1", { tags := ["some-tag"], datetime := "2024-05-01 12:00:00",
                   dependencies := [] }),
         ("id2", { tags := ["other"], datetime := "2024-06-01 12:00:00",
                   dependencies := [] })] ["some-tag"] true =
      Except.ok [("id1", { tags := ["some-tag"], datetime := "2024-05-01 12:00:00",
                           dependencies := [] })] := by
  constructor
  · decide
  · decide

/-! ## Claim C6: removing a job -/

/-- C6: `Repository.remove` requires the job to be contained in the
repository; when some other job's recorded dependencies contain a dependency
with `job == jobId` it fails with the dependents error, whose list is
non-empty and names exactly jobs whose recorded dependencies reference
`jobId` (the exception propagates before either mutation, so storage and
index are unchanged); otherwise — given the construction invariant that no
job's own index entry references itself — it deletes the storage directory
and the index entry, and afterwards no remaining indexed job has a dependency
with `job == jobId`. -/
theorem C6_remove (s : RepoState) (j : String) :
    (¬ s.storage.contains j = true →
      Repository.remove s j = Except.error RemoveError.not_contained) ∧
    (s.storage.contains j = true →
      (∃ e ∈ s.index, e.1 ≠ j ∧ depends_on e j = true) →
      ∃ ids, Repository.remove s j = Except.error (RemoveError.has_dependents ids) ∧
        ids ≠ [] ∧ ∀ i ∈ ids, ∃ e ∈ s.index, e.1 = i ∧ depends_on e j = true) ∧
    (s.storage.contains j = true →
      (∀ e ∈ s.index, e.1 ≠ j → depends_on e j = false) →
      (∀ e ∈ s.index, e.1 = j → depends_on e j = false) →
      Repository.remove s j = Except.ok
        { storage := s.storage.filter (fun i => i != j),
          index := s.index.filter (fun e => e.1 != j) } ∧
      j ∉ s.storage.filter (fun i => i != j) ∧
      ∀ e ∈ s.index.filter (fun e => e.1 != j), depends_on e j = false) := by
  refine ⟨?_, ?_, ?_⟩
  · intro hnc
    have hb : s.storage.contains j = false := Bool.eq_false_iff.mpr hnc
    unfold Repository.remove
    rw [if_pos (by rw [hb]; rfl)]
  · intro hc ⟨e, hmem, hne, hdep⟩
    unfold Repository.remove
    rw [if_neg (by rw [hc]; simp)]
    have hne' : (Index.find_dependents s.index j).isEmpty = false := by
      unfold Index.find_dependents
      rcases hf : List.filter (fun e => depends_on e j) s.index with _ | ⟨x, xs⟩
      · exact absurd (List.mem_filter.mpr ⟨hmem, hdep⟩) (by rw [hf]; simp)
      · simp
    refine ⟨(Index.find_dependents s.index j).map (fun e => e.1),
      by rw [if_pos (by rw [hne']; rfl)], ?_, ?_⟩
    · intro hmap
      rw [List.map_eq_nil_iff] at hmap
      exact absurd (List.mem_filter.mpr ⟨hmem, hdep⟩)
        (by unfold Index.find_dependents at hmap; rw [hmap]; simp)
    · intro i hi
      rcases List.mem_map.mp hi with ⟨x, hx, hxi⟩
      have hx' := List.mem_filter.mp (by
        unfold Index.find_dependents at hx
        exact hx)
      exact ⟨x, hx'.1, hxi, hx'.2⟩
  · intro hc hother hself
    unfold Repository.remove
    rw [if_neg (by rw [hc]; simp)]
    have hdeps : Index.find_dependents s.index j = [] := by
      unfold Index.find_dependents
      rw [List.filter_eq_nil_iff]
      intro e he
      by_cases hej : e.1 = j
      · simp [hself e he hej]
      · simp [hother e he hej]
    rw [hdeps]
    refine ⟨by rw [if_neg (by simp)], ?_, ?_⟩
    · intro hmem
      have := (List.mem_filter.mp hmem).2
      simp at this
    · intro e hmem
      have h2 := List.mem_filter.mp hmem
      refine hother e h2.1 ?_
      have := h2.2
      simpa using this

/-- Witness for C6: a two-job repository where job `b` depends on job `a`.
Removing `a` fails naming `b`; removing `b` succeeds and leaves an index in
which nothing references `b`; removing an absent id fails the containment
check. -/
theorem C6_remove_witness :
    (∃ ids, Repository.remove state_ab "a" =
        Except.error (RemoveError.has_dependents ids) ∧ ids ≠ [] ∧
        ∀ i ∈ ids, ∃ e ∈ state_ab.index, e.1 = i ∧ depends_on e "a" = true) ∧
    Repository.remove state_ab "b" =
      Except.ok { storage := ["a"], index := [("a", entry_a)] } ∧
    Repository.remove { storage := ["a"], index := [] } "c" =
      Except.error RemoveError.not_contained := by
  refine ⟨?_, ?_, ?_⟩
  · exact (C6_remove state_ab "a").2.1 (by decide)
      ⟨("b", entry_b), by decide, by decide, by decide⟩
  · have h := ((C6_remove state_ab "b").2.2 (by decide) (by decide) (by decide)).1
    rw [h]
    decide
  · exact (C6_remove _ "c").1 (by decide)

/-! ## Claim C2: resolving a query-all dependency -/

/-- C2: for a query-all dependency whose tag query parses and matches at
least one committed job, `_resolve_query_all_dependency` returns one
`JobDependency` per matched job — even when exactly one job matches — whose
destination is the original destination extended with the job id,
whose source is the empty path (printed `"."`), and whose `query_all`
back-pointer carries the original query.  The job ids are well-formed path
components (they are UUID strings), which is what `hwf` records. -/
theorem C2_resolve_query_all (index : Index) (q : String) (dest : Path)
    (tags : List String) (hq : parseQueryTags q = some tags)
    (hne : Index.find index tags false ≠ [])
    (hwf : ∀ e ∈ Index.find index tags false, wfComp e.1) :
    Repository.resolve_query_all_dependency index q dest =
      Except.ok ((Index.find index tags false).map (fun j =>
        Dependency.jobDep j.1 (dest ++ [j.1]) [] none (some q))) ∧
    ((Index.find index tags false).map (fun j =>
        Dependency.jobDep j.1 (dest ++ [j.1]) [] none (some q))).length =
      (Index.find index tags false).length ∧
    Path.toString [] = "." := by
  refine ⟨?_, List.length_map _ _, rfl⟩
  simp only [Repository.resolve_query_all_dependency, hq]
  rw [if_neg (fun h => hne (List.isEmpty_iff.mp h))]
  congr 1
  apply List.map_congr_left
  intro j hj
  rw [ofString_single j.1 (hwf j hj)]
  rfl

/-- Witness for C2 on a single-entry index: the per-job suffix is applied
even though exactly one job matches. -/
theorem C2_resolve_query_all_witness :
    Repository.resolve_query_all_dependency index_single "#x" ["deps"] =
      Except.ok [Dependency.jobDep "idA" ["deps", "idA"] [] none (some "#x")] := by
  have h := (C2_resolve_query_all index_single "#x" ["deps"] ["x"]
    (by decide) (by decide) (by decide)).1
  rw [h]
  decide

/-! ## Claim C4: ordering and determinism of find and query-all resolution -/

theorem sorted_rel_getLast {α : Type} {r : α → α → Prop} (hrefl : ∀ a, r a a) :
    ∀ (l : List α), List.Sorted r l → ∀ (h : l ≠ []) (x : α), x ∈ l →
      r x (l.getLast h)
  | [], _, h, _, _ => absurd rfl h
  | [a], _, _, x, hx => by
    rcases List.mem_singleton.mp hx with rfl
    exact hrefl x
  | a :: b :: t, hs, _, x, hx => by
    rw [List.sorted_cons] at hs
    rw [List.getLast_cons (l := b :: t) (by simp)]
    rcases List.mem_cons.mp hx with rfl | hx2
    · exact hs.1 _ (List.getLast_mem (by simp))
    · exact sorted_rel_getLast hrefl (b :: t) hs.2 (by simp) x hx2

/-- C4: the later-generation `find` (modelled from spec section 4.6, since
`r3/index.py` is not among the sources) with `latest=False` returns exactly
the matching entries, sorted ascending by datetime with ties broken by job
id; with `latest=True` it returns the maximum under that same order (or
nothing when nothing matches); and a successful query-all resolution, which
is a pure function of the repository state, maps exactly that sorted
sequence to job dependencies, hence is ordered ascending by `committed_at`
with the same tie-break. -/
theorem C4_find_order (index : Index) (tags : List String) (q : String) (dest : Path) :
    List.Sorted EntryLe (Index.find index tags false) ∧
    (Index.find index tags false).Perm (index.filter (matchesTags tags)) ∧
    (index.filter (matchesTags tags) = [] → Index.find index tags true = []) ∧
    (index.filter (matchesTags tags) ≠ [] →
      ∃ m, Index.find index tags true = [m] ∧ m ∈ index.filter (matchesTags tags) ∧
        ∀ x ∈ index.filter (matchesTags tags), EntryLe x m) ∧
    (∀ tags2 L, parseQueryTags q = some tags2 →
      Repository.resolve_query_all_dependency index q dest = Except.ok L →
      L = (Index.find index tags2 false).map (fun j =>
        Dependency.jobDep j.1 (dest ++ Path.ofString j.1) (Path.ofString "")
          none (some q)) ∧
      List.Sorted EntryLe (Index.find index tags2 false)) := by
  have hsorted : ∀ ts, List.Sorted EntryLe (Index.find index ts false) := by
    intro ts
    show List.Sorted EntryLe (List.insertionSort EntryLe (index.filter (matchesTags ts)))
    exact insertionSort_sorted EntryLe EntryLe_total EntryLe_trans _
  have hperm : ∀ ts, (Index.find index ts false).Perm (index.filter (matchesTags ts)) :=
    fun ts => List.perm_insertionSort EntryLe _
  refine ⟨hsorted tags, hperm tags, ?_, ?_, ?_⟩
  · intro hnil
    show (List.insertionSort EntryLe (index.filter (matchesTags tags))).getLast?.toList = []
    rw [hnil]
    rfl
  · intro hne
    have hne2 : List.insertionSort EntryLe (index.filter (matchesTags tags)) ≠ [] := by
      intro hc
      exact hne (((List.perm_insertionSort EntryLe _).symm.trans (hc ▸ List.Perm.refl _)).eq_nil)
    refine ⟨(List.insertionSort EntryLe (index.filter (matchesTags tags))).getLast hne2,
      ?_, ?_, ?_⟩
    · show (List.insertionSort EntryLe (index.filter (matchesTags tags))).getLast?.toList = _
      rw [List.getLast?_eq_getLast _ hne2]
      rfl
    · exact (hperm tags).subset (List.getLast_mem hne2)
    · intro x hx
      exact sorted_rel_getLast EntryLe_refl _ (hsorted tags) hne2 x
        ((hperm tags).mem_iff.mpr hx)
  · intro tags2 L hq hok
    simp only [Repository.resolve_query_all_dependency, hq] at hok
    by_cases hemp : (Index.find index tags2 false).isEmpty
    · rw [if_pos hemp] at hok
      exact absurd hok (by simp)
    · rw [if_neg hemp] at hok
      exact ⟨(Except.ok.inj hok).symm, hsorted tags2⟩

/-- Witness for C4 on a concrete index with a datetime tie: the tie between
ids `b` and `a` is broken by job id, `latest` returns the maximum, and a
query-all resolution follows the sorted order. -/
theorem C4_find_order_witness :
    Index.find index_x ["x"] false = [("c", entry_x2), ("a", entry_x1), ("b", entry_x1)] ∧
    (∃ m, Index.find index_x ["x"] true = [m] ∧
      m ∈ index_x.filter (matchesTags ["x"]) ∧
      ∀ x ∈ index_x.filter (matchesTags ["x"]), EntryLe x m) ∧
    ([Dependency.jobDep "c" ["deps", "c"] [] none (some "#x"),
      Dependency.jobDep "a" ["deps", "a"] [] none (some "#x"),
      Dependency.jobDep "b" ["deps", "b"] [] none (some "#x")] =
      (Index.find index_x ["x"] false).map (fun j =>
        Dependency.jobDep j.1 (["deps"] ++ Path.ofString j.1) (Path.ofString "")
          none (some "#x"))) := by
  refine ⟨by decide, ?_, ?_⟩
  · exact (C4_find_order index_x ["x"] "#x" ["deps"]).2.2.2.1 (by decide)
  · exact ((C4_find_order index_x ["x"] "#x" ["deps"]).2.2.2.2 ["x"]
      [Dependency.jobDep "c" ["deps", "c"] [] none (some "#x"),
       Dependency.jobDep "a" ["deps", "a"] [] none (some "#x"),
       Dependency.jobDep "b" ["deps", "b"] [] none (some "#x")]
      (by decide) (by decide)).1

/-! ## Claim C9: semantics of _find_files -/

/-- C9 counterexample: the tree has a directory `a` (containing file `x`)
followed by a sibling file `b`, with the single ignore pattern `/b`.
According to the claim, `b` is excluded: the pattern `/b` sits at `b`'s level
and equals `"/" + basename`.  But the loop in `_find_files` rebinds its
`ignore_patterns` variable when it descends into `a` (keeping only patterns
with string prefix `/a`, here none), so the sibling `b` is matched against
the rewritten, empty pattern list and is yielded anyway. -/
theorem C9_counterexample :
    find_files [FsEntry.dir "a" [FsEntry.file "x"], FsEntry.file "b"] ["/b"] =
      Except.ok [["a", "x"], ["b"]] ∧
    _is_ignored "b" ["/b"] = true := by
  constructor
  · simp only [find_files, find_files_loop]
    decide
  · decide

/-- C9 amended: `find_files` rejects pattern lists containing a pattern
without a leading slash; a child is excluded iff some pattern in the
*current* pattern list equals `"/" + basename`; and when the walk descends
into a non-ignored directory `d`, exactly the patterns whose *string* prefix
is `"/d"` are kept (so `/db` is kept for directory `d` and rewritten to `b`,
which the nested call then rejects), rewritten by dropping that prefix — and
this rewritten list also replaces the pattern list for the siblings processed
after the descent. -/
theorem C9_find_files_semantics (root : List FsEntry) (pats : List String)
    (n : String) (cs rest : List FsEntry) :
    ((∃ p ∈ pats, pyStartsWith p "/" = false) →
      find_files root pats = Except.error unsupportedPatternMsg) ∧
    (_is_ignored n pats = true ↔ ∃ p ∈ pats, p = "/" ++ n) ∧
    (find_files_loop (FsEntry.file n :: rest) pats =
      if _is_ignored n pats then find_files_loop rest pats
      else (find_files_loop rest pats).map (fun r => [n] :: r)) ∧
    (_is_ignored n pats = false →
      find_files_loop (FsEntry.dir n cs :: rest) pats =
        (do
          let sub ← find_files cs ((pats.filter
            (fun p => pyStartsWith p ("/" ++ n))).map
              (fun p => pyDrop p ("/" ++ n).length))
          let r ← find_files_loop rest ((pats.filter
            (fun p => pyStartsWith p ("/" ++ n))).map
              (fun p => pyDrop p ("/" ++ n).length))
          pure (sub.map (fun q => n :: q) ++ r))) := by
  refine ⟨?_, ?_, ?_, ?_⟩
  · rintro ⟨p, hp, hps⟩
    unfold find_files
    rw [if_pos]
    rw [Bool.not_eq_true']
    rw [List.all_eq_false]
    exact ⟨p, hp, by rw [hps]; simp⟩
  · unfold _is_ignored
    rw [List.any_eq_true]
    constructor
    · rintro ⟨p, hp, hpe⟩
      exact ⟨p, hp, of_decide_eq_true hpe⟩
    · rintro ⟨p, hp, hpe⟩
      exact ⟨p, hp, decide_eq_true hpe⟩
  · rw [find_files_loop]
  · intro hni
    rw [find_files_loop]
    rw [if_neg (by rw [hni]; simp)]
    unfold find_files
    by_cases hval : ((pats.filter (fun p => pyStartsWith p ("/" ++ n))).map
        (fun p => pyDrop p ("/" ++ n).length)).all (fun p => pyStartsWith p "/")
    · rw [if_neg (by rw [hval]; simp), if_neg (by rw [hval]; simp)]
    · rw [Bool.not_eq_true] at hval
      rw [if_pos (by rw [hval]; rfl), if_pos (by rw [hval]; rfl)]
      rfl

/-- Witness for C9 amended: rejection of a slashless pattern; exclusion of a
file matched at its level; the descent equation evaluated on a small tree,
showing both that `/ab` leaks into the subtree of `a` (as `b`, which the
nested call rejects) and that the rewritten list is what the later siblings
see. -/
theorem C9_find_files_semantics_witness :
    find_files [FsEntry.file "x"] ["oops"] = Except.error unsupportedPatternMsg ∧
    _is_ignored "b" ["/b"] = true ∧
    find_files_loop [FsEntry.file "b"] ["/b"] = Except.ok [] ∧
    find_files_loop [FsEntry.dir "a" [], FsEntry.file "ab"] ["/ab"] =
      Except.error unsupportedPatternMsg := by
  refine ⟨?_, ?_, ?_, ?_⟩
  · exact (C9_find_files_semantics [FsEntry.file "x"] ["oops"] "" [] []).1
      ⟨"oops", by decide, by decide⟩
  · exact (C9_find_files_semantics [] ["/b"] "b" [] []).2.1.mpr ⟨"/b", by decide, rfl⟩
  · rw [(C9_find_files_semantics [] ["/b"] "b" [] []).2.2.1]
    simp only [find_files_loop]
    decide
  · rw [(C9_find_files_semantics [] ["/ab"] "a" [] [FsEntry.file "ab"]).2.2.2 (by decide)]
    simp only [find_files, find_files_loop]
    decide

/-! ## Hash computation lemmas (claims C1 and C8) -/

theorem specFileEntriesOf_cons_manifest (sha256 : String → String)
    (f : Path × String) (rest : List (Path × String)) (h : isManifestPath f.1) :
    specFileEntriesOf sha256 (f :: rest) = specFileEntriesOf sha256 rest := by
  simp [specFileEntriesOf, List.filter_cons, h]

theorem specFileEntriesOf_cons (sha256 : String → String)
    (f : Path × String) (rest : List (Path × String)) (h : ¬ isManifestPath f.1) :
    specFileEntriesOf sha256 (f :: rest) =
      (Path.toString f.1, hash_file sha256 f.2) :: specFileEntriesOf sha256 rest := by
  simp [specFileEntriesOf, List.filter_cons, h]

theorem file_keys_cons_manifest (f : Path × String) (rest : List (Path × String))
    (h : isManifestPath f.1) : file_keys (f :: rest) = file_keys rest := by
  simp [file_keys, List.filter_cons, h]

theorem file_keys_cons (f : Path × String) (rest : List (Path × String))
    (h : ¬ isManifestPath f.1) :
    file_keys (f :: rest) = Path.toString f.1 :: file_keys rest := by
  simp [file_keys, List.filter_cons, h]

theorem specFileEntriesOf_keys (sha256 : String → String)
    (files : List (Path × String)) :
    (specFileEntriesOf sha256 files).map Prod.fst = file_keys files := by
  unfold specFileEntriesOf file_keys
  rw [List.map_map]
  rfl

theorem specDepEntriesOf_keys (sha256 : String → String) :
    ∀ (deps : List Dependency), (∀ dep ∈ deps, (dep.hash sha256).isSome) →
      (specDepEntriesOf sha256 deps).map Prod.fst = dep_keys deps
  | [], _ => rfl
  | dep :: rest, h => by
    rcases Option.isSome_iff_exists.mp (h dep (by simp)) with ⟨v, hv⟩
    have ih := specDepEntriesOf_keys sha256 rest
      (fun x hx => h x (List.mem_cons_of_mem dep hx))
    simp only [specDepEntriesOf, List.filterMap_cons, hv, Option.map_some'] at ih ⊢
    simp only [List.map_cons, dep_keys, ih]

theorem nodup_append_head_fresh {l1 l2 : List String} {k : String}
    (h : (l1 ++ k :: l2).Nodup) : k ∉ l1 := by
  rw [List.nodup_append] at h
  exact fun hm => h.2.2 hm (by simp)

theorem file_hashes_fold_eq (sha256 : String → String) :
    ∀ (files : List (Path × String)) (d : List (String × String)),
      ((d.map Prod.fst) ++ file_keys files).Nodup →
      file_hashes_fold sha256 d files = d ++ specFileEntriesOf sha256 files
  | [], d, _ => by simp [file_hashes_fold, specFileEntriesOf]
  | f :: rest, d, h => by
    by_cases hm : isManifestPath f.1
    · rw [file_keys_cons_manifest f rest hm] at h
      simp only [file_hashes_fold, if_pos hm]
      rw [file_hashes_fold_eq sha256 rest d h, specFileEntriesOf_cons_manifest sha256 f rest hm]
    · rw [file_keys_cons f rest hm] at h
      simp only [file_hashes_fold, if_neg hm]
      have hfresh : ∀ kv ∈ d, kv.1 ≠ Path.toString f.1 := by
        intro kv hkv he
        exact nodup_append_head_fresh h (he ▸ List.mem_map_of_mem Prod.fst hkv)
      rw [dict_set_fresh d _ _ hfresh]
      have h' : (((d ++ [(Path.toString f.1, hash_file sha256 f.2)]).map Prod.fst)
          ++ file_keys rest).Nodup := by
        rw [List.map_append, List.append_assoc]
        simpa using h
      rw [file_hashes_fold_eq sha256 rest _ h']
      rw [specFileEntriesOf_cons sha256 f rest hm, List.append_assoc]
      rfl

theorem dep_hashes_fold_eq (sha256 : String → String) :
    ∀ (deps : List Dependency) (d : List (String × String)),
      (∀ dep ∈ deps, (dep.hash sha256).isSome) →
      ((d.map Prod.fst) ++ dep_keys deps).Nodup →
      dep_hashes_fold sha256 d deps = some (d ++ specDepEntriesOf sha256 deps)
  | [], d, _, _ => by simp [dep_hashes_fold, specDepEntriesOf]
  | dep :: rest, d, hs, h => by
    rcases Option.isSome_iff_exists.mp (hs dep (by simp)) with ⟨v, hv⟩
    simp only [dep_hashes_fold, hv]
    have hcons : dep_keys (dep :: rest) = Path.toString dep.destination :: dep_keys rest := rfl
    rw [hcons] at h
    have hfresh : ∀ kv ∈ d, kv.1 ≠ Path.toString dep.destination := by
      intro kv hkv he
      exact nodup_append_head_fresh h (he ▸ List.mem_map_of_mem Prod.fst hkv)
    rw [dict_set_fresh d _ _ hfresh]
    have h' : (((d ++ [(Path.toString dep.destination, v)]).map Prod.fst)
        ++ dep_keys rest).Nodup := by
      rw [List.map_append, List.append_assoc]
      simpa using h
    rw [dep_hashes_fold_eq sha256 rest _
      (fun x hx => hs x (List.mem_cons_of_mem dep hx)) h']
    simp only [specDepEntriesOf, List.filterMap_cons, hv, Option.map_some', List.append_assoc]
    rfl

/-- The characterisation of `Job.hash` shared by claims C1 and C8: when every
dependency is hashable and the entry keys are distinct and do not contain
`"."`, the stored dict is the spec's entry map followed by the root entry,
and the returned hash is the digest of the spec's index string. -/
theorem hashes_dict_spec (sha256 : String → String) (job : Job)
    (hdeps : ∀ dep ∈ job.dependencies, (dep.hash sha256).isSome)
    (hkeys : (job_keys job).Nodup)
    (hdot : "." ∉ job_keys job) :
    Job.hashes_dict sha256 job =
      some (specEntries sha256 job ++
        [(".", hash_str sha256 (specIndexString sha256 job))]) ∧
    Job.hash sha256 job = some (hash_str sha256 (specIndexString sha256 job)) := by
  have hkeysE : (specEntries sha256 job).map Prod.fst = job_keys job := by
    unfold specEntries job_keys
    rw [List.map_append, specFileEntriesOf_keys, specDepEntriesOf_keys sha256 _ hdeps]
  have hkeys_files : (file_keys job.files).Nodup := by
    unfold job_keys at hkeys
    exact (List.nodup_append.mp hkeys).1
  have h1 : file_hashes_fold sha256 [] job.files = specFileEntriesOf sha256 job.files := by
    have := file_hashes_fold_eq sha256 job.files [] (by simpa using hkeys_files)
    simpa using this
  have h2 : dep_hashes_fold sha256 (specFileEntriesOf sha256 job.files) job.dependencies =
      some (specEntries sha256 job) := by
    have := dep_hashes_fold_eq sha256 job.dependencies (specFileEntriesOf sha256 job.files)
      hdeps (by
        rw [specFileEntriesOf_keys]
        exact hkeys)
    rw [this]
    rfl
  have hfreshdot : ∀ kv ∈ specEntries sha256 job, kv.1 ≠ "." := by
    intro kv hkv he
    exact hdot (he ▸ hkeysE ▸ List.mem_map_of_mem Prod.fst hkv)
  have hindex : joinWith "\n" ((sortedKeys (specEntries sha256 job)).map
      (fun p => p ++ " " ++ ((aLookup p (specEntries sha256 job)).getD ""))) =
      specIndexString sha256 job := by
    unfold specIndexString sortedKeys
    rw [hkeysE]
  have hmain : Job.hashes_dict sha256 job =
      some (specEntries sha256 job ++
        [(".", hash_str sha256 (specIndexString sha256 job))]) := by
    unfold Job.hashes_dict
    rw [h1, h2]
    simp only [hindex]
    rw [dict_set_fresh _ _ _ hfreshdot]
  refine ⟨hmain, ?_⟩
  unfold Job.hash
  rw [hmain]
  simp only [Option.map_some']
  rw [aLookup_append_of_not_mem "." _ _ hfreshdot]
  rfl

/-! ## Claim C1: the job hash and the stored hashes dict -/

/-- C1: for a job whose dependencies are all hashable and whose entry keys
are distinct (and distinct from the root key `"."`), `hash(job)` is
`hash_str` of the index obtained by joining the lines `<path> <hash>` over
the sorted keys of the entry map — files (other than `r3.yaml` and
`metadata.yaml`) hashed by content, dependencies by their own hash — and
`config["hashes"]` stores the per-entry hashes plus that value under `"."`;
in particular a job with no files and no dependencies stores exactly
`{"." : hash_str("")}`. -/
theorem C1_job_hash (sha256 : String → String) (job : Job)
    (hdeps : ∀ dep ∈ job.dependencies, (dep.hash sha256).isSome)
    (hkeys : (job_keys job).Nodup)
    (hdot : "." ∉ job_keys job) :
    Job.hash sha256 job = some (hash_str sha256 (specIndexString sha256 job)) ∧
    Job.hashes_dict sha256 job =
      some (specEntries sha256 job ++
        [(".", hash_str sha256 (specIndexString sha256 job))]) ∧
    Job.hashes_dict sha256 { files := [], dependencies := [] } =
      some [(".", hash_str sha256 "")] := by
  refine ⟨(hashes_dict_spec sha256 job hdeps hkeys hdot).2,
    (hashes_dict_spec sha256 job hdeps hkeys hdot).1, rfl⟩

/-- Witness for C1: the hash pipeline evaluated with the identity digest on a
one-file, one-dependency job, and on the empty job. -/
theorem C1_job_hash_witness :
    Job.hash idDigest job_hash_w =
      some (hash_str idDigest (specIndexString idDigest job_hash_w)) ∧
    Job.hash idDigest job_hash_w = some "d1 jobs/j1/.\nf1 c1" ∧
    Job.hashes_dict idDigest { files := [], dependencies := [] } = some [(".", "")] := by
  refine ⟨(C1_job_hash idDigest job_hash_w (by decide) (by decide) (by decide)).1,
    by decide, by decide⟩

/-! ## Claim C8: hash stability across commits -/

/-- C8: two jobs whose file sets realise the same destination-to-content
mapping (the file lists are permutations of one another, with distinct entry
keys) and whose resolved dependency lists are identical store the same job
hash and `config["hashes"]` mappings that are identical as mappings — hence
byte-identical once serialised, since `yaml.dump` sorts keys — even though
the two commits assign different `job_id`s and `committed_at` times (neither
of which enters the computation at all). -/
theorem C8_hash_stability (sha256 : String → String) (j1 j2 : Job)
    (hfiles : j1.files.Perm j2.files)
    (hdeps : j1.dependencies = j2.dependencies)
    (hkeys : (job_keys j1).Nodup)
    (hdot : "." ∉ job_keys j1)
    (hhash : ∀ dep ∈ j1.dependencies, (dep.hash sha256).isSome) :
    Job.hash sha256 j1 = Job.hash sha256 j2 ∧
    (Job.hashes_dict sha256 j1).map canonicalDict =
      (Job.hashes_dict sha256 j2).map canonicalDict := by
  have hfk : (file_keys j1.files).Perm (file_keys j2.files) := by
    unfold file_keys
    exact (hfiles.filter _).map _
  have hjk : (job_keys j1).Perm (job_keys j2) := by
    unfold job_keys
    rw [← hdeps]
    exact hfk.append_right _
  have hkeys2 : (job_keys j2).Nodup := hjk.nodup_iff.mp hkeys
  have hdot2 : "." ∉ job_keys j2 := fun hm => hdot (hjk.mem_iff.mpr hm)
  have hhash2 : ∀ dep ∈ j2.dependencies, (dep.hash sha256).isSome := by
    rw [← hdeps]
    exact hhash
  have hE : (specEntries sha256 j1).Perm (specEntries sha256 j2) := by
    unfold specEntries
    rw [← hdeps]
    refine List.Perm.append_right _ ?_
    unfold specFileEntriesOf
    exact (hfiles.filter _).map _
  have hEkeys : (specEntries sha256 j1).map Prod.fst = job_keys j1 := by
    unfold specEntries job_keys
    rw [List.map_append, specFileEntriesOf_keys, specDepEntriesOf_keys sha256 _ hhash]
  have hindex : specIndexString sha256 j1 = specIndexString sha256 j2 := by
    unfold specIndexString
    rw [insertionSort_eq_of_perm StrLe StrLe_total StrLe_trans StrLe_antisymm hjk]
    congr 1
    apply List.map_congr_left
    intro p _
    rw [aLookup_perm hE (hEkeys ▸ hkeys) p]
  have H1 := hashes_dict_spec sha256 j1 hhash hkeys hdot
  have H2 := hashes_dict_spec sha256 j2 hhash2 hkeys2 hdot2
  constructor
  · rw [H1.2, H2.2, hindex]
  · rw [H1.1, H2.1]
    simp only [Option.map_some']
    congr 1
    apply insertionSort_eq_of_perm PairLe PairLe_total PairLe_trans PairLe_antisymm
    rw [hindex]
    exact hE.append_right _

/-- Witness for C8: the same two-file tree enumerated in the two possible
orders yields the same hash and the same canonical hashes dict. -/
theorem C8_hash_stability_witness :
    Job.hash idDigest job_perm_w1 = Job.hash idDigest job_perm_w2 ∧
    (Job.hashes_dict idDigest job_perm_w1).map canonicalDict =
      (Job.hashes_dict idDigest job_perm_w2).map canonicalDict ∧
    Job.hash idDigest job_perm_w1 = some "a x\nb y" := by
  have h := C8_hash_stability idDigest job_perm_w1 job_perm_w2
    (List.Perm.swap _ _ _) (by decide) (by decide) (by decide) (by decide)
  exact ⟨h.1, h.2, by decide⟩

end R3
